import Mathlib

/-!
Verification development for the marginal maximum-entropy engine in
`dit/algorithms/maxentropyfw.py`.

The Python module is shallowly embedded over `List ℚ`:

* probability vectors and constraint right-hand sides are `List ℚ`;
* constraint matrices are `List (List ℚ)` (row-major, rectangular in the
  source, so the column count of a matrix is the length of its first row);
* the external CVXOPT LP solver is an abstract oracle parameter: each call
  site receives a function producing the solver status (`true` = the status
  string `optimal`) together with the numeric values of the unknowns;
* `np.log2` (a float approximation in the source) is an abstract parameter
  `l2 : ℚ → ℚ`; no claim depends on its values;
* the Euclidean-norm convergence test `np.linalg.norm(xnew - x) < tol` is
  embedded as the equivalent square-free test `0 < tol ∧ sumSq (xnew-x) < tol²`;
* Python exceptions are `Except String`; an unbound local variable is
  modelled by an `Option` binding that is `none` on the branch where the
  source never assigns the variable.
-/

namespace Dit

abbrev Mat : Type := List (List ℚ)

/-- Dot product of two rational vectors (truncating like `zipWith`). -/
def dot (r x : List ℚ) : ℚ := (List.zipWith (· * ·) r x).sum

/-- Componentwise difference of two vectors. -/
def listSub (a b : List ℚ) : List ℚ := List.zipWith (· - ·) a b

/-- Sum of squares of the entries. -/
def sumSq (v : List ℚ) : ℚ := (v.map (fun t => t * t)).sum

/-- `‖v‖ < t` for the Euclidean norm, expressed without square roots:
for `t > 0` this is `sumSq v < t²`, and for `t ≤ 0` it is false. -/
def normLt (v : List ℚ) (t : ℚ) : Bool :=
  decide (0 < t) && decide (sumSq v < t * t)

/-- Column count of a (rectangular, row-major) matrix: `A.size[1]` in cvxopt. -/
def matCols (A : Mat) : ℕ := (A.headD []).length

/-- `A[:, cols]`: restrict every row of `A` to the listed columns. -/
def selectCols (A : Mat) (cols : List ℕ) : Mat :=
  A.map (fun r => cols.map (fun j => r.getD j 0))

/-- Unit row `e_i` of length `n`. -/
def unitRow (n i : ℕ) : List ℚ :=
  (List.range n).map (fun j => if j = i then (1 : ℚ) else 0)

/-- Indicator row of a cell (set of joint-outcome indices), length `n`. -/
def indicatorRow (n : ℕ) (cell : List ℕ) : List ℚ :=
  (List.range n).map (fun j => if j ∈ cell then (1 : ℚ) else 0)

/-- `pmf[idx].sum()`: aggregate pmf mass of the joint indices in a cell. -/
def cellMass (pmf : List ℚ) (cell : List ℕ) : ℚ :=
  (cell.map (fun j => pmf.getD j 0)).sum

/-- `v / v.sum()` componentwise (the renormalisation idiom of the source). -/
def normalizeList (v : List ℚ) : List ℚ := v.map (· / v.sum)

/-- Clamp entries of absolute value below `tol` to exactly zero
(`xopt[np.abs(xopt) < tol] = 0`). -/
def clampSmall (tol : ℚ) (x : List ℚ) : List ℚ :=
  x.map (fun v => if |v| < tol then 0 else v)

/-- The final cleanup of `frank_wolfe`: clamp small entries, renormalise. -/
def cleanup (tol : ℚ) (x : List ℚ) : List ℚ :=
  normalizeList (clampSmall tol x)

/-- `xx = np.zeros(n); xx[idxs] = vals` (numpy fancy assignment). -/
def scatter (n : ℕ) (idxs : List ℕ) (vals : List ℚ) : List ℚ :=
  (List.zip idxs vals).foldl (fun acc p => acc.set p.1 p.2)
    (List.replicate n (0 : ℚ))

/-- `itertools.combinations(l, k)` in the same (lexicographic) order. -/
def combinations : ℕ → List ℕ → List (List ℕ)
  | 0, _ => [[]]
  | _ + 1, [] => []
  | k + 1, x :: xs =>
      (combinations k xs).map (fun c => x :: c) ++ combinations (k + 1) xs

/-- Sequence a list of `Except` computations, propagating the first error
(the Python loop raises at the first failing call). -/
def seqExcept {E α : Type} : List (Except E α) → Except E (List α)
  | [] => .ok []
  | e :: es =>
      match e with
      | .error err => .error err
      | .ok v =>
          match seqExcept es with
          | .error err => .error err
          | .ok vs => .ok (v :: vs)

/-- The index partition produced by `isolate_zeros` (the source's `Bunch`). -/
structure Bunch where
  nonzero : List ℕ
  zero : List ℕ
  deriving Repr, DecidableEq

/-- Model of the abstract-distribution-structure collaborator
(`dit.abstractdist.get_abstract_dist`): for a chosen subset of variables,
`parameter_array` groups the joint-outcome indices by marginal cell. -/
structure AbsDist where
  n_variables : ℕ
  n_elements : ℕ
  parameter_array : List ℕ → List (List ℕ)

/-- `np.isclose(p, 0)`: `|p - 0| ≤ atol + rtol·|0| = 1e-8`. -/
def iscloseZero (p : ℚ) : Bool := decide (|p| ≤ 1 / 10 ^ 8)

/-- Tolerance `tol = 1e-8` used by `initial_point`. -/
def ipTol : ℚ := 1 / 10 ^ 8

/-- `bvec[idx] = 1; zero_elements += bvec`: add the indicator of a cell to
the integer count vector. -/
def incrAt (z : List ℕ) (idx : List ℕ) : List ℕ :=
  (List.range z.length).map (fun i => if i ∈ idx then z.getD i 0 + 1 else z.getD i 0)

/-- One inner step of the `isolate_zeros` double loop: if the cell's
aggregate mass is numerically close to zero, mark all its indices. -/
def zcell (pmf : List ℚ) (z : List ℕ) (idx : List ℕ) : List ℕ :=
  if iscloseZero (cellMass pmf idx) then incrAt z idx else z

/-- The `zero_elements` count vector of `isolate_zeros`. -/
def zero_elements (d : AbsDist) (pmf : List ℚ) (k : ℕ) : List ℕ :=
  (combinations k (List.range d.n_variables)).foldl
    (fun z s => (d.parameter_array s).foldl (zcell pmf) z)
    (List.replicate d.n_elements 0)

/-- `isolate_zeros(dist, k)`: equality rows pinning forced-zero indices to 0
(`None` when there are none) and the zero/nonzero partition. -/
def isolate_zeros (d : AbsDist) (pmf : List ℚ) (k : ℕ) :
    Option Mat × Option (List ℚ) × Bunch :=
  let z := zero_elements d pmf k
  let zero := (List.range d.n_elements).filter (fun i => z.getD i 0 ≠ 0)
  let A := zero.map (fun i => unitRow d.n_elements i)
  let b := zero.map (fun _ => (0 : ℚ))
  let nonzero := (List.range d.n_elements).filter (fun i => i ∉ zero)
  if A.isEmpty then (none, none, ⟨nonzero, zero⟩)
  else (some A, some b, ⟨nonzero, zero⟩)

/-- Modelled from the spec: `marginal_constraints` (from
`dit.algorithms.maxentropy`) is not under `src/`.  Per §6 of the spec it
returns the full linear system whose rows enumerate every
(k-subset-of-variables, marginal-cell) pair — the row is the indicator of
the joint indices in the cell and the right-hand side is that cell's target
probability under the input distribution. -/
def marginal_constraints (d : AbsDist) (pmf : List ℚ) (k : ℕ) : Mat × List ℚ :=
  let pairs := ((combinations k (List.range d.n_variables)).map (fun s =>
    (d.parameter_array s).map (fun cell =>
      (indicatorRow d.n_elements cell, cellMass pmf cell)))).flatten
  (pairs.map Prod.fst, pairs.map Prod.snd)

/-- Modelled from the spec: `dit.product_distribution` is not under `src/`.
Per §4.6/§6 it returns the independent product of each variable's
univariate marginal: a joint outcome's mass is the product over variables
of the marginal mass of the cell containing that outcome. -/
def product_distribution (d : AbsDist) (pmf : List ℚ) : List ℚ :=
  (List.range d.n_elements).map (fun i =>
    ((List.range d.n_variables).map (fun v =>
      match (d.parameter_array [v]).find? (fun cell => i ∈ cell) with
      | some cell => cellMass pmf cell
      | none => 0)).prod)

/-- `op_runner`: run one LP-oracle call with the process-wide solver options
replaced by `kwargs` (`options.clear(); options.update(kwargs)`), restoring
the saved copy in a `finally` block on both the normal and the exceptional
exit path.  The mutable `cvxopt.solvers.options` dict is threaded as
explicit state; the result pairs the solve outcome with the final contents
of the options mapping. -/
def op_runner {Opts R : Type} (options : Opts) (kwargs : Opts)
    (solve : Opts → Except String R) : Except String R × Opts :=
  let old_options := options
  match solve kwargs with
  | .ok r => (.ok r, old_options)
  | .error e => (.error e, old_options)

/-- The Frank-Wolfe averaging update of line 265:
`xnew = (i * x + 2 * xbar_opt) / (i + 2)`. -/
def fwUpdate (i : ℕ) (x xbar : List ℚ) : List ℚ :=
  List.zipWith (fun a c => ((i : ℚ) * a + 2 * c) / ((i : ℚ) + 2)) x xbar

/-- The decreasing-step form described by the spec:
`x_new = (1 − γ_i)·x + γ_i·x̄` with `γ_i = 2/(i+2)`. -/
def fwUpdateGamma (i : ℕ) (x xbar : List ℚ) : List ℚ :=
  List.zipWith (fun a c => (1 - 2 / ((i : ℚ) + 2)) * a + (2 / ((i : ℚ) + 2)) * c) x xbar

/-- Log line for a non-optimal direction-finding subproblem. -/
def nonOptimalMsg : String := "Did not find optimal direction"

/-- Log line of the `for/else` branch when the iteration budget runs out. -/
def nonConvergedMsg : String := "Only converged partially within the iteration budget"

/-- The `for i in range(maxiters)` loop of `frank_wolfe`, with the remaining
fuel explicit.  The direction-finding LP (built from `gradient(x)` and the
constraints `x̄ ≥ 0`, `|A x̄ − b| ≤ 1e-7`) is abstracted into `oracle i x`,
returning the status and the value `opt.variables()[0].value`.  The local
`obj` is `none` until first assigned, mirroring the Python local; the third
component collects the printed diagnostics. -/
def fwLoop (objective : List ℚ → ℚ) (oracle : ℕ → List ℚ → Bool × List ℚ)
    (tol : ℚ) : ℕ → ℕ → List ℚ → Option ℚ → List String →
    List ℚ × Option ℚ × List String
  | 0, _, x, obj, logs => (x, obj, logs ++ [nonConvergedMsg])
  | fuel + 1, i, x, _, logs =>
      let obj := objective x
      let res := oracle i x
      let logs1 := if res.1 then logs else logs ++ [nonOptimalMsg]
      let xnew := fwUpdate i x res.2
      if normLt (listSub xnew x) tol then
        (xnew, some (objective xnew), logs1)
      else
        fwLoop objective oracle tol fuel (i + 1) xnew (some obj) logs1

/-- `frank_wolfe(objective, gradient, A, b, initial_x, maxiters, tol)`:
asserts the column count of `A` matches the iterate length, runs the loop,
then clamps small entries of the final iterate and renormalises.  Returning
the local `obj` when the loop body never ran raises (`obj` unbound). -/
def frank_wolfe (objective : List ℚ → ℚ) (oracle : ℕ → List ℚ → Bool × List ℚ)
    (A : Mat) (_b : List ℚ) (initial_x : List ℚ) (maxiters : ℕ) (tol : ℚ) :
    Except String (List ℚ × ℚ × List String) :=
  if matCols A = initial_x.length then
    let r := fwLoop objective oracle tol maxiters 0 initial_x none []
    let xopt := cleanup tol r.1
    match r.2.1 with
    | none => .error "UnboundLocalError: obj"
    | some obj => .ok (xopt, obj, r.2.2)
  else .error "AssertionError"

/-- Snap entries with `|v| < 1e-8` to exactly zero (`initial_point`). -/
def snapip (v : List ℚ) : List ℚ :=
  v.map (fun t => if |t| < ipTol then 0 else t)

/-- The `A is None or b is None` branch of `initial_point`: either check the
supplied `A` is the reduced matrix, or rebuild `(A, b)` from the external
`marginal_constraints` and reduce the columns to the nonzero support. -/
def ip_branch (vars : Bunch) (A? : Option Mat) (b? : Option (List ℚ))
    (mc : Mat × List ℚ) : Except String (Mat × List ℚ) :=
  match A?, b? with
  | some A, some b =>
      if matCols A = vars.nonzero.length then .ok (A, b)
      else .error "A must be the reduced equality constraint matrix."
  | _, _ => .ok (selectCols mc.1 vars.nonzero, mc.2)

/-- `initial_point(dist, k, A, b, isolated)`: find a strictly interior point
of the reduced feasible set through one LP-oracle call, snap tiny entries
to zero and renormalise.  `mc` stands for the external
`marginal_constraints(dist, k)`; the oracle receives the constraint data
and returns the status with the extracted length-`n` unknown.  The local
`variables` is assigned only under `isolated is None`, so it is carried as
an `Option` that is `none` on the other branch: reading it there is the
Python `UnboundLocalError`. -/
def initial_point (d : AbsDist) (pmf : List ℚ) (k : ℕ) (mc : Mat × List ℚ)
    (A? : Option Mat) (b? : Option (List ℚ)) (isolated : Option Bunch)
    (oracle : Mat → List ℚ → Bool × List ℚ) : Except String (List ℚ) :=
  let variables? : Option Bunch :=
    match isolated with
    | none => some (isolate_zeros d pmf k).2.2
    | some _ => none
  match variables? with
  | none => .error "UnboundLocalError: variables"
  | some vars =>
      match ip_branch vars A? b? mc with
      | .error e => .error e
      | .ok (Asmall, b) =>
          let res := oracle Asmall b
          if res.1 then
            .ok (normalizeList (snapip res.2))
          else
            .error "Could not find valid initial point."

/-- `negentropy(p) = np.nansum(p * np.log2(p))` with `l2` standing for
`np.log2`: nonpositive entries contribute `0` (the `nan`s of `0·log 0` and
`log` of a negative are dropped by `nansum`). -/
def negentropy (l2 : ℚ → ℚ) (p : List ℚ) : ℚ :=
  (p.map (fun v => if v ≤ 0 then 0 else v * l2 v)).sum

/-- `marginal_maxent(dist, k)`: isolate the forced zeros, reduce the
marginal-constraint system to the nonzero support, find an initial point,
run Frank-Wolfe with the negentropy objective, and expand the optimised
reduced vector back to full length (`xfinal = zeros(A.shape[1]);
xfinal[nonzero] = x`). -/
def marginal_maxent (d : AbsDist) (pmf : List ℚ) (k : ℕ) (l2 : ℚ → ℚ)
    (ipOracle : Mat → List ℚ → Bool × List ℚ)
    (fwOracle : ℕ → List ℚ → Bool × List ℚ)
    (maxiters : ℕ) (tol : ℚ) : Except String (List ℚ × ℚ) :=
  let vars := (isolate_zeros d pmf k).2.2
  let Ab := marginal_constraints d pmf k
  let Asmall := selectCols Ab.1 vars.nonzero
  match initial_point d pmf k Ab (some Asmall) (some Ab.2) none ipOracle with
  | .error e => .error e
  | .ok x0 =>
      match frank_wolfe (negentropy l2) fwOracle Asmall Ab.2 x0 maxiters tol with
      | .error e => .error e
      | .ok (x, obj, _) =>
          .ok (scatter (matCols Ab.1) vars.nonzero x, obj)

/-- `marginal_maxent_dists(dist, k_max)`: the uniform distribution, the
product of marginals, the optimised order-k distributions for
`k ∉ {0, 1, k_max}` in increasing `k`, and finally the original
distribution.  The oracles are indexed by `k` (each order solves its own
LPs); an exception from any inner call propagates. -/
def marginal_maxent_dists (d : AbsDist) (pmf : List ℚ) (l2 : ℚ → ℚ)
    (ipO : ℕ → Mat → List ℚ → Bool × List ℚ)
    (fwO : ℕ → ℕ → List ℚ → Bool × List ℚ)
    (k_max maxiters : ℕ) (tol : ℚ) : Except String (List (List ℚ)) :=
  let k0 := normalizeList (List.replicate d.n_elements (1 : ℚ))
  let k1 := product_distribution d pmf
  let ks := (List.range (k_max + 1)).filter (fun k => !([0, 1, k_max].contains k))
  match seqExcept (ks.map (fun k =>
      (marginal_maxent d pmf k l2 (ipO k) (fwO k) maxiters tol).map Prod.fst)) with
  | .error e => .error e
  | .ok middles => .ok ([k0, k1] ++ middles ++ [pmf])

/-- The reduced constraint matrix `Asmall = A[:, nonzero]` that
`marginal_maxent` hands to `initial_point` and `frank_wolfe`. -/
def reducedA (d : AbsDist) (pmf : List ℚ) (k : ℕ) : Mat :=
  selectCols (marginal_constraints d pmf k).1 ((isolate_zeros d pmf k).2.2).nonzero

/-- `x` satisfies every row of the reduced marginal-constraint system within
`ε`: row `j` is the reduced indicator of the `j`-th (k-subset, cell) pair and
the right-hand side is that cell's mass under the original distribution, so
this says every k-subset marginal of (the full-length expansion of) `x`
matches the original's within `ε`. -/
abbrev constraintsOk (d : AbsDist) (pmf : List ℚ) (k : ℕ) (ε : ℚ) (x : List ℚ) : Prop :=
  ∀ j < (marginal_constraints d pmf k).2.length,
    |dot ((reducedA d pmf k).getD j []) x -
      (marginal_constraints d pmf k).2.getD j 0| ≤ ε

/-! ### Concrete fixtures

A two-variable, two-symbol distribution in the canonical dense ordering
`(0,0), (0,1), (1,0), (1,1)`, used as evaluation input for witnesses and
counterexamples. -/

/-- Marginal-cell grouping of the 2×2 joint space: cells of variable 0 are
`{0,1}, {2,3}`; cells of variable 1 are `{0,2}, {1,3}`; cells of the full
pair are the singletons. -/
def paFix : List ℕ → List (List ℕ) := fun s =>
  if s = [0] then [[0, 1], [2, 3]]
  else if s = [1] then [[0, 2], [1, 3]]
  else if s = [0, 1] then [[0], [1], [2], [3]]
  else [[0, 1, 2, 3]]

/-- The 2-variable, 4-outcome abstract distribution structure. -/
def dFix : AbsDist := ⟨2, 4, paFix⟩

/-- The uniform pmf on the four outcomes. -/
def pmfUnif : List ℚ := [1/4, 1/4, 1/4, 1/4]

/-- The perfectly correlated pmf `[0.5, 0, 0, 0.5]`. -/
def pmfCorr : List ℚ := [1/2, 0, 0, 1/2]

/-! ### Theorems -/

/-- Claim C4: at every Frank-Wolfe iteration `i ≥ 0` the accepted update is
`x_new = (i·x + 2·x̄_opt)/(i + 2)` (the embedded `fwUpdate` of line 265), and
for all vectors this equals the decreasing-step form
`(1 − γ_i)·x + γ_i·x̄_opt` with `γ_i = 2/(i+2)`. -/
theorem c4_update_equivalence (i : ℕ) (x xbar : List ℚ) :
    fwUpdate i x xbar = fwUpdateGamma i x xbar := by
  unfold fwUpdate fwUpdateGamma
  induction x generalizing xbar with
  | nil => simp
  | cons a xs ih =>
      cases xbar with
      | nil => simp
      | cons c cs =>
          have h2 : ((i : ℚ) + 2) ≠ 0 := by positivity
          simp only [List.zipWith_cons_cons, List.cons.injEq]
          constructor
          · field_simp
          · exact ih cs

/-- Claim C7: `op_runner` restores the process-wide solver-options mapping
to its exact prior contents on every exit path — both when the solve
returns normally and when it raises — and otherwise just propagates the
solve outcome, so no option override leaks into later oracle calls. -/
theorem c7_op_runner_restores {Opts R : Type} (options kwargs : Opts)
    (solve : Opts → Except String R) :
    (op_runner options kwargs solve).2 = options ∧
    (op_runner options kwargs solve).1 = solve kwargs := by
  unfold op_runner
  cases h : solve kwargs <;> simp [h]

/-- Claim C10: whenever `initial_point` is called with `isolated ≠ None`,
the local `variables` is never assigned (it is only bound under the
`isolated is None` branch) yet is read unconditionally afterwards, so the
call fails with an unbound-variable error regardless of every other
argument. -/
theorem c10_isolated_unbound (d : AbsDist) (pmf : List ℚ) (k : ℕ)
    (mc : Mat × List ℚ) (A? : Option Mat) (b? : Option (List ℚ)) (bunch : Bunch)
    (oracle : Mat → List ℚ → Bool × List ℚ) :
    initial_point d pmf k mc A? b? (some bunch) oracle =
      .error "UnboundLocalError: variables" := rfl

/-- Claim C8 counterexample: with `maxiters = 0` the iteration budget is
exhausted (zero iterations ran, the non-convergence branch logs) and
`frank_wolfe` then raises — the local `obj` was never assigned — instead of
returning its last iterate.  This refutes "never raises … on exhausting its
iteration budget" as stated. -/
theorem c8_counterexample :
    frank_wolfe (fun _ => (0 : ℚ)) (fun _ _ => (true, [1])) [[1]] [1] [1] 0 (1/1000) =
      .error "UnboundLocalError: obj" := by with_unfolding_all rfl

/-- Claim C9 counterexample: a one-iteration budget-exhausted run (objective
= sum of squares, direction `[2]` from iterate `[3]`) returns the vector
`[1]` after cleanup together with objective value `9 = sumSq [3]`, which is
not the objective at the returned vector (`sumSq [1] = 1`).  The returned
objective is evaluated before the clamp-and-renormalise post-processing,
at the start of the final iteration. -/
theorem c9_counterexample :
    frank_wolfe sumSq (fun _ _ => (true, [2])) [[1]] [0] [3] 1 (1/1000) =
      .ok ([1], 9, [nonConvergedMsg]) ∧ sumSq [1] ≠ 9 := by
  refine ⟨by with_unfolding_all rfl, by with_unfolding_all decide⟩

/-- Claim C2 counterexample: with `k_max = 0` the driver still returns the
three distributions `[uniform, product-of-marginals, original]`, not
`k_max + 1 = 1` of them (the `k = 0` loop index is skipped because it lies
in `[0, 1, k_max]`, and the uniform, product and original distributions are
appended unconditionally). -/
theorem c2_counterexample :
    marginal_maxent_dists dFix pmfUnif (fun _ => 0) (fun _ _ _ => (true, pmfUnif))
        (fun _ _ _ => (true, pmfUnif)) 0 1 (1/1000) =
      .ok [pmfUnif, pmfUnif, pmfUnif] ∧
    ([pmfUnif, pmfUnif, pmfUnif] : List (List ℚ)).length ≠ 0 + 1 := by
  refine ⟨by with_unfolding_all rfl, by decide⟩

/-- Claim C1 counterexample: an order-1 `marginal_maxent` run on the uniform
2×2 distribution in which the direction-finding LP reports a non-optimal
status (tolerated and logged by design, per §7 of the spec) and returns the
infeasible direction `[1,0,0,0]`, with a one-iteration budget.  The engine
returns the pmf `[1,0,0,0]`, whose variable-0 marginal cell `{0,1}` has
mass 1 against the original marginal 1/2 — off by 1/2, far beyond the
configured tolerance `tol = 1e-3`. -/
theorem c1_counterexample :
    marginal_maxent dFix pmfUnif 1 (fun _ => 0) (fun _ _ => (true, pmfUnif))
        (fun _ _ => (false, [1, 0, 0, 0])) 1 (1/1000) = .ok ([1, 0, 0, 0], 0) ∧
    [0] ∈ combinations 1 (List.range 2) ∧
    [0, 1] ∈ dFix.parameter_array [0] ∧
    ¬ (|cellMass [1, 0, 0, 0] [0, 1] - cellMass pmfUnif [0, 1]| ≤ 1/1000) := by
  refine ⟨by with_unfolding_all rfl, by decide, by decide, by with_unfolding_all decide⟩

/-! ### Characterisation of `isolate_zeros` (claim C5) -/

lemma length_incrAt (z idx : List ℕ) : (incrAt z idx).length = z.length := by
  simp [incrAt]

lemma getD_incrAt (z idx : List ℕ) (i : ℕ) (hi : i < z.length) :
    (incrAt z idx).getD i 0 = if i ∈ idx then z.getD i 0 + 1 else z.getD i 0 := by
  unfold incrAt
  rw [List.getD_eq_getElem?_getD, List.getElem?_map, List.getElem?_range hi]
  simp

lemma length_zcell (pmf : List ℚ) (z c : List ℕ) :
    (zcell pmf z c).length = z.length := by
  unfold zcell
  split <;> simp [length_incrAt]

lemma length_foldl_zcell (pmf : List ℚ) :
    ∀ (cells : List (List ℕ)) (z : List ℕ),
      (cells.foldl (zcell pmf) z).length = z.length
  | [], _ => rfl
  | c :: cs, z => by
      simp only [List.foldl_cons]
      rw [length_foldl_zcell pmf cs, length_zcell]

lemma getD_zcell_ne (pmf : List ℚ) (z c : List ℕ) (i : ℕ) (hi : i < z.length) :
    ((zcell pmf z c).getD i 0 ≠ 0 ↔
      z.getD i 0 ≠ 0 ∨ (i ∈ c ∧ iscloseZero (cellMass pmf c) = true)) := by
  unfold zcell
  split_ifs with hcl
  · rw [getD_incrAt z c i hi]
    split_ifs with hmem <;> simp [hmem, hcl]
  · simp [hcl]

lemma getD_foldl_zcell_ne (pmf : List ℚ) :
    ∀ (cells : List (List ℕ)) (z : List ℕ) (i : ℕ), i < z.length →
      ((cells.foldl (zcell pmf) z).getD i 0 ≠ 0 ↔
        z.getD i 0 ≠ 0 ∨ ∃ c ∈ cells, i ∈ c ∧ iscloseZero (cellMass pmf c) = true)
  | [], z, i, _ => by simp
  | c :: cs, z, i, hi => by
      have h1 := getD_foldl_zcell_ne pmf cs (zcell pmf z c) i
        (by rw [length_zcell]; exact hi)
      have h2 := getD_zcell_ne pmf z c i hi
      simp only [List.foldl_cons, h1, h2, List.mem_cons]
      constructor
      · rintro ((hz | hc) | ⟨c', hc', h⟩)
        · exact .inl hz
        · exact .inr ⟨c, .inl rfl, hc⟩
        · exact .inr ⟨c', .inr hc', h⟩
      · rintro (hz | ⟨c', (rfl | hc'), h⟩)
        · exact .inl (.inl hz)
        · exact .inl (.inr h)
        · exact .inr ⟨c', hc', h⟩

lemma foldl_nested_flatten {α β : Type} (f : List ℕ → α → List ℕ)
    (g : β → List α) :
    ∀ (l : List β) (z : List ℕ),
      l.foldl (fun z s => (g s).foldl f z) z = ((l.map g).flatten.foldl f z)
  | [], _ => rfl
  | s :: l, z => by
      simp only [List.foldl_cons, List.map_cons, List.flatten_cons, List.foldl_append]
      exact foldl_nested_flatten f g l _

lemma zero_elements_length (d : AbsDist) (pmf : List ℚ) (k : ℕ) :
    (zero_elements d pmf k).length = d.n_elements := by
  unfold zero_elements
  rw [foldl_nested_flatten (zcell pmf) d.parameter_array]
  rw [length_foldl_zcell, List.length_replicate]

lemma zero_elements_ne (d : AbsDist) (pmf : List ℚ) (k : ℕ) (i : ℕ)
    (hi : i < d.n_elements) :
    ((zero_elements d pmf k).getD i 0 ≠ 0 ↔
      ∃ s ∈ combinations k (List.range d.n_variables),
        ∃ c ∈ d.parameter_array s, i ∈ c ∧ iscloseZero (cellMass pmf c) = true) := by
  unfold zero_elements
  rw [foldl_nested_flatten (zcell pmf) d.parameter_array]
  rw [getD_foldl_zcell_ne pmf _ _ i (by simp [hi])]
  simp only [List.getD_eq_getElem?_getD, List.getElem?_replicate, if_pos hi]
  constructor
  · rintro (h | ⟨c, hc, h⟩)
    · simp at h
    · rcases List.mem_flatten.mp hc with ⟨cs, hcs, hc'⟩
      rcases List.mem_map.mp hcs with ⟨s, hs, rfl⟩
      exact ⟨s, hs, c, hc', h⟩
  · rintro ⟨s, hs, c, hc, h⟩
    exact .inr ⟨c, List.mem_flatten.mpr ⟨d.parameter_array s, List.mem_map_of_mem _ hs, hc⟩, h⟩

lemma isolate_zeros_eq (d : AbsDist) (pmf : List ℚ) (k : ℕ) :
    isolate_zeros d pmf k =
      (let zl := (List.range d.n_elements).filter
          (fun i => (zero_elements d pmf k).getD i 0 ≠ 0)
       (if zl.isEmpty then none else some (zl.map (unitRow d.n_elements)),
        if zl.isEmpty then none else some (zl.map (fun _ => (0 : ℚ))),
        ⟨(List.range d.n_elements).filter (fun i => i ∉ zl), zl⟩)) := by
  unfold isolate_zeros
  dsimp only
  have hmap : ∀ (l : List ℕ),
      (l.map (fun i => unitRow d.n_elements i)).isEmpty = l.isEmpty := by
    intro l; cases l <;> rfl
  rw [hmap]
  split_ifs with h
  · rfl
  · rfl

/-- Claim C5: `isolate_zeros` marks a joint-outcome index (of the dense
sample space) as forced-zero precisely when some k-subset marginal cell
containing it has aggregate pmf mass `np.isclose` to 0, the marking being
the union over all `C(n,k)` subsets and their cells; the returned equality
system pins exactly the marked indices to 0 (one unit row each, zero
right-hand side), and is `(None, None)` rather than a zero-row matrix when
no index is marked. -/
theorem c5_isolate_zeros (d : AbsDist) (pmf : List ℚ) (k : ℕ) (i : ℕ)
    (hi : i < d.n_elements) :
    (i ∈ ((isolate_zeros d pmf k).2.2).zero ↔
      ∃ s ∈ combinations k (List.range d.n_variables),
        ∃ cell ∈ d.parameter_array s, i ∈ cell ∧ iscloseZero (cellMass pmf cell) = true) ∧
    (((isolate_zeros d pmf k).2.2).zero = [] →
      (isolate_zeros d pmf k).1 = none ∧ (isolate_zeros d pmf k).2.1 = none) ∧
    (((isolate_zeros d pmf k).2.2).zero ≠ [] →
      (isolate_zeros d pmf k).1 =
        some ((((isolate_zeros d pmf k).2.2).zero).map (unitRow d.n_elements)) ∧
      (isolate_zeros d pmf k).2.1 =
        some ((((isolate_zeros d pmf k).2.2).zero).map (fun _ => (0 : ℚ)))) := by
  rw [isolate_zeros_eq]
  dsimp only
  refine ⟨?_, ?_, ?_⟩
  · rw [List.mem_filter]
    constructor
    · rintro ⟨-, h⟩
      exact (zero_elements_ne d pmf k i hi).mp (by simpa using h)
    · intro h
      exact ⟨List.mem_range.mpr hi,
        by simpa using (zero_elements_ne d pmf k i hi).mpr h⟩
  · intro h0
    rw [h0]
    exact ⟨rfl, rfl⟩
  · intro h0
    rw [if_neg (by simpa [List.isEmpty_iff] using h0),
      if_neg (by simpa [List.isEmpty_iff] using h0)]
    exact ⟨rfl, rfl⟩

/-- Witness for C5 at a concrete input: on the perfectly correlated pmf
`[1/2, 0, 0, 1/2]` with `k = 2`, index 1 is marked forced-zero, as the
singleton cell `{1}` of the full-pair marginal has mass 0. -/
theorem c5_isolate_zeros_witness :
    1 < dFix.n_elements ∧
    ((1 ∈ ((isolate_zeros dFix pmfCorr 2).2.2).zero ↔
      ∃ s ∈ combinations 2 (List.range 2),
        ∃ cell ∈ dFix.parameter_array s,
          1 ∈ cell ∧ iscloseZero (cellMass pmfCorr cell) = true) ∧
    (((isolate_zeros dFix pmfCorr 2).2.2).zero = [] →
      (isolate_zeros dFix pmfCorr 2).1 = none ∧ (isolate_zeros dFix pmfCorr 2).2.1 = none) ∧
    (((isolate_zeros dFix pmfCorr 2).2.2).zero ≠ [] →
      (isolate_zeros dFix pmfCorr 2).1 =
        some ((((isolate_zeros dFix pmfCorr 2).2.2).zero).map (unitRow dFix.n_elements)) ∧
      (isolate_zeros dFix pmfCorr 2).2.1 =
        some ((((isolate_zeros dFix pmfCorr 2).2.2).zero).map (fun _ => (0 : ℚ))))) :=
  ⟨by decide, c5_isolate_zeros dFix pmfCorr 2 1 (by decide)⟩

/-! ### `initial_point` (claim C6) -/

lemma sum_map_div (w : List ℚ) (s : ℚ) : (w.map (· / s)).sum = w.sum / s := by
  induction w with
  | nil => simp
  | cons a t ih => simp [ih, add_div]

lemma getD_normalizeList (w : List ℚ) (j : ℕ) :
    (normalizeList w).getD j 0 = w.getD j 0 / w.sum := by
  unfold normalizeList
  rw [List.getD_eq_getElem?_getD, List.getElem?_map, List.getD_eq_getElem?_getD]
  cases h : w[j]? with
  | none => simp
  | some v => simp

lemma getD_snapip (v : List ℚ) (j : ℕ) :
    (snapip v).getD j 0 = if |v.getD j 0| < ipTol then 0 else v.getD j 0 := by
  unfold snapip
  rw [List.getD_eq_getElem?_getD, List.getElem?_map, List.getD_eq_getElem?_getD]
  cases h : v[j]? with
  | none => simp [ite_self]
  | some t => simp

lemma sum_normalizeList (w : List ℚ) (h : w.sum ≠ 0) : (normalizeList w).sum = 1 := by
  unfold normalizeList
  rw [sum_map_div, div_self h]

/-- Claim C6: under the normal calling convention (`isolated = None` and a
branch-consistent `(A, b)` supply), `initial_point` raises exactly when the
LP oracle reports a non-optimal status; on an optimal status it returns the
oracle's vector with every entry of absolute value below `1e-8` snapped to
exactly 0 and the rest divided by the snapped vector's sum, which makes the
result sum to exactly 1 whenever that (snapped) sum is nonzero. -/
theorem c6_initial_point (d : AbsDist) (pmf : List ℚ) (k : ℕ) (mc : Mat × List ℚ)
    (A? : Option Mat) (b? : Option (List ℚ))
    (oracle : Mat → List ℚ → Bool × List ℚ) (As : Mat) (bb : List ℚ)
    (hbr : ip_branch (isolate_zeros d pmf k).2.2 A? b? mc = .ok (As, bb)) :
    ((oracle As bb).1 = false →
      initial_point d pmf k mc A? b? none oracle =
        .error "Could not find valid initial point.") ∧
    ((oracle As bb).1 = true →
      initial_point d pmf k mc A? b? none oracle =
        .ok (normalizeList (snapip (oracle As bb).2)) ∧
      (∀ j, |(oracle As bb).2.getD j 0| < ipTol →
        (normalizeList (snapip (oracle As bb).2)).getD j 0 = 0) ∧
      (∀ j, ¬ |(oracle As bb).2.getD j 0| < ipTol →
        (normalizeList (snapip (oracle As bb).2)).getD j 0 =
          (oracle As bb).2.getD j 0 / (snapip (oracle As bb).2).sum) ∧
      ((snapip (oracle As bb).2).sum ≠ 0 →
        (normalizeList (snapip (oracle As bb).2)).sum = 1)) := by
  have hip : initial_point d pmf k mc A? b? none oracle =
      (if (oracle As bb).1 then .ok (normalizeList (snapip (oracle As bb).2))
       else .error "Could not find valid initial point.") := by
    unfold initial_point
    dsimp only
    rw [hbr]
  constructor
  · intro hst
    rw [hip, hst]
    rfl
  · intro hst
    refine ⟨by rw [hip, hst]; rfl, ?_, ?_, ?_⟩
    · intro j hj
      rw [getD_normalizeList, getD_snapip, if_pos hj, zero_div]
    · intro j hj
      rw [getD_normalizeList, getD_snapip, if_neg hj]
    · exact sum_normalizeList _

/-- Witness for C6 at a concrete input: on the uniform 2×2 distribution at
`k = 1` with `A, b` rebuilt from the constraint builder, an optimal oracle
answer `pmfUnif` is returned snapped and renormalised. -/
theorem c6_initial_point_witness :
    ip_branch (isolate_zeros dFix pmfUnif 1).2.2 none none
        (marginal_constraints dFix pmfUnif 1) =
      .ok ([[1,1,0,0],[0,0,1,1],[1,0,1,0],[0,1,0,1]],
        [1/2, 1/2, 1/2, 1/2]) ∧
    initial_point dFix pmfUnif 1 (marginal_constraints dFix pmfUnif 1) none none none
        (fun _ _ => (true, pmfUnif)) = .ok (normalizeList (snapip pmfUnif)) :=
  ⟨by with_unfolding_all rfl,
   ((c6_initial_point dFix pmfUnif 1 (marginal_constraints dFix pmfUnif 1) none none
      (fun _ _ => (true, pmfUnif)) [[1,1,0,0],[0,0,1,1],[1,0,1,0],[0,1,0,1]]
      [1/2, 1/2, 1/2, 1/2] (by with_unfolding_all rfl)).2 rfl).1⟩

/-! ### The Frank-Wolfe loop (claims C8, C9) -/

lemma fwLoop_obj_isSome (objective : List ℚ → ℚ)
    (oracle : ℕ → List ℚ → Bool × List ℚ) (tol : ℚ) :
    ∀ (fuel i : ℕ) (x : List ℚ) (ob : Option ℚ) (lg : List String),
      ob.isSome = true ∨ 1 ≤ fuel →
      ((fwLoop objective oracle tol fuel i x ob lg).2.1).isSome = true
  | 0, _, _, _, _, h => by
      rcases h with h | h
      · simpa [fwLoop] using h
      · omega
  | fuel + 1, i, x, ob, lg, _ => by
      rw [fwLoop]
      try dsimp only
      by_cases hc : normLt (listSub (fwUpdate i x (oracle i x).2) x) tol = true
      · rw [if_pos hc]
        rfl
      · rw [if_neg hc]
        exact fwLoop_obj_isSome objective oracle tol fuel (i + 1) _ _ _
          (Or.inl Option.isSome_some)

lemma fwLoop_status_indep (objective : List ℚ → ℚ)
    (oracle : ℕ → List ℚ → Bool × List ℚ) (tol : ℚ) :
    ∀ (fuel i : ℕ) (x : List ℚ) (ob : Option ℚ) (lg lg' : List String),
      (fwLoop objective (fun j y => (true, (oracle j y).2)) tol fuel i x ob lg').1 =
        (fwLoop objective oracle tol fuel i x ob lg).1 ∧
      (fwLoop objective (fun j y => (true, (oracle j y).2)) tol fuel i x ob lg').2.1 =
        (fwLoop objective oracle tol fuel i x ob lg).2.1
  | 0, _, _, _, _, _ => ⟨rfl, rfl⟩
  | fuel + 1, i, x, ob, lg, lg' => by
      rw [fwLoop, fwLoop]
      try dsimp only
      by_cases hc : normLt (listSub (fwUpdate i x (oracle i x).2) x) tol = true
      · rw [if_pos hc, if_pos hc]
        exact ⟨rfl, rfl⟩
      · rw [if_neg hc, if_neg hc]
        exact fwLoop_status_indep objective oracle tol fuel (i + 1) _ _ _ _

/-- Claim C8 (amended): for `maxiters ≥ 1` and a passing size assertion,
`frank_wolfe` never raises — a non-optimal direction-finding status only
adds a log line and the loop continues with the returned direction (the
returned vector and objective are identical to the run in which every
status is optimal), and on budget exhaustion the cleaned-up last iterate is
still returned. -/
theorem c8_amended (objective : List ℚ → ℚ) (oracle : ℕ → List ℚ → Bool × List ℚ)
    (A : Mat) (b : List ℚ) (x0 : List ℚ) (maxiters : ℕ) (tol : ℚ)
    (h1 : 1 ≤ maxiters) (h2 : matCols A = x0.length) :
    ∃ xopt obj logs logs2,
      frank_wolfe objective oracle A b x0 maxiters tol = .ok (xopt, obj, logs) ∧
      frank_wolfe objective (fun j y => (true, (oracle j y).2)) A b x0 maxiters tol =
        .ok (xopt, obj, logs2) := by
  unfold frank_wolfe
  rw [if_pos h2, if_pos h2]
  have hs := fwLoop_obj_isSome objective oracle tol maxiters 0 x0 none [] (Or.inr h1)
  obtain ⟨obj, hobj⟩ := Option.isSome_iff_exists.mp hs
  have hind := fwLoop_status_indep objective oracle tol maxiters 0 x0 none [] []
  refine ⟨cleanup tol (fwLoop objective oracle tol maxiters 0 x0 none []).1, obj,
    (fwLoop objective oracle tol maxiters 0 x0 none []).2.2,
    (fwLoop objective (fun j y => (true, (oracle j y).2)) tol maxiters 0 x0 none []).2.2,
    ?_, ?_⟩
  · dsimp only
    rw [hobj]
  · dsimp only
    rw [hind.2, hobj, hind.1]

/-- Witness for the amended C8 at a concrete input: a run whose single
direction-finding call reports a non-optimal status returns normally, with
the same vector and objective as the all-optimal run. -/
theorem c8_amended_witness :
    ∃ xopt obj logs logs2,
      frank_wolfe sumSq (fun _ _ => (false, [2])) [[1]] [0] [3] 1 (1/1000) =
        .ok (xopt, obj, logs) ∧
      frank_wolfe sumSq (fun _ _ => (true, ([2] : List ℚ))) [[1]] [0] [3] 1 (1/1000) =
        .ok (xopt, obj, logs2) :=
  c8_amended sumSq (fun _ _ => (false, [2])) [[1]] [0] [3] 1 (1/1000)
    (by decide) (by decide)

lemma fwLoop_final_spec (objective : List ℚ → ℚ)
    (oracle : ℕ → List ℚ → Bool × List ℚ) (tol : ℚ) :
    ∀ (fuel i : ℕ) (x : List ℚ) (ob : Option ℚ) (lg : List String),
      (fwLoop objective oracle tol fuel i x ob lg =
          (x, ob, lg ++ [nonConvergedMsg]) ∧ fuel = 0) ∨
      (∃ j y,
        (fwLoop objective oracle tol fuel i x ob lg).1 =
            fwUpdate j y (oracle j y).2 ∧
        ((normLt (listSub (fwUpdate j y (oracle j y).2) y) tol = true ∧
            (fwLoop objective oracle tol fuel i x ob lg).2.1 =
              some (objective (fwUpdate j y (oracle j y).2))) ∨
         (normLt (listSub (fwUpdate j y (oracle j y).2) y) tol = false ∧
            (fwLoop objective oracle tol fuel i x ob lg).2.1 =
              some (objective y))))
  | 0, _, _, _, _ => Or.inl ⟨rfl, rfl⟩
  | fuel + 1, i, x, ob, lg => by
      rw [fwLoop]
      try dsimp only
      by_cases hc : normLt (listSub (fwUpdate i x (oracle i x).2) x) tol = true
      · rw [if_pos hc]
        exact Or.inr ⟨i, x, rfl, Or.inl ⟨hc, rfl⟩⟩
      · rw [if_neg hc]
        rcases fwLoop_final_spec objective oracle tol fuel (i + 1)
            (fwUpdate i x (oracle i x).2) (some (objective x))
            (if (oracle i x).1 = true then lg else lg ++ [nonOptimalMsg]) with
          ⟨heq, hf0⟩ | ⟨j, y, hval, hd⟩
        · refine Or.inr ⟨i, x, ?_, Or.inr ⟨by simpa using hc, ?_⟩⟩
          · rw [heq]
          · rw [heq]
        · exact Or.inr ⟨j, y, hval, hd⟩

/-- Claim C9 (amended): on any successful exit of `frank_wolfe` the final
pre-cleanup iterate is some accepted update `fwUpdate j y x̄_j`, the returned
vector is its cleanup, and the returned objective value is the objective at
that pre-cleanup iterate when the step converged (`xdiff < tol`), and at the
iterate `y` from the start of the final iteration when the budget was
exhausted — not, in general, the objective at the returned post-processed
vector. -/
theorem c9_amended (objective : List ℚ → ℚ) (oracle : ℕ → List ℚ → Bool × List ℚ)
    (A : Mat) (b : List ℚ) (x0 : List ℚ) (maxiters : ℕ) (tol : ℚ)
    (xopt : List ℚ) (obj : ℚ) (logs : List String)
    (h : frank_wolfe objective oracle A b x0 maxiters tol = .ok (xopt, obj, logs)) :
    ∃ j y,
      xopt = cleanup tol (fwUpdate j y (oracle j y).2) ∧
      ((normLt (listSub (fwUpdate j y (oracle j y).2) y) tol = true ∧
          obj = objective (fwUpdate j y (oracle j y).2)) ∨
       (normLt (listSub (fwUpdate j y (oracle j y).2) y) tol = false ∧
          obj = objective y)) := by
  unfold frank_wolfe at h
  by_cases h2 : matCols A = x0.length
  · rw [if_pos h2] at h
    dsimp only at h
    rcases fwLoop_final_spec objective oracle tol maxiters 0 x0 none [] with
      ⟨heq, -⟩ | ⟨j, y, hval, hd⟩
    · rw [heq] at h
      simp at h
    · rcases hd with ⟨hcv, hobj⟩ | ⟨hcv, hobj⟩
      · rw [hobj] at h
        simp only [Except.ok.injEq, Prod.mk.injEq] at h
        exact ⟨j, y, by rw [← h.1, hval], Or.inl ⟨hcv, h.2.1.symm⟩⟩
      · rw [hobj] at h
        simp only [Except.ok.injEq, Prod.mk.injEq] at h
        exact ⟨j, y, by rw [← h.1, hval], Or.inr ⟨hcv, h.2.1.symm⟩⟩
  · rw [if_neg h2] at h
    cases h

/-- Witness for the amended C9 at a concrete input: the budget-exhausted run
of the C9 counterexample satisfies the amended characterisation with
`obj = objective y` at the start-of-final-iteration iterate. -/
theorem c9_amended_witness :
    ∃ j y,
      ([1] : List ℚ) = cleanup (1/1000) (fwUpdate j y [2]) ∧
      ((normLt (listSub (fwUpdate j y [2]) y) (1/1000) = true ∧
          (9 : ℚ) = sumSq (fwUpdate j y [2])) ∨
       (normLt (listSub (fwUpdate j y [2]) y) (1/1000) = false ∧
          (9 : ℚ) = sumSq y)) :=
  c9_amended sumSq (fun _ _ => (true, [2])) [[1]] [0] [3] 1 (1/1000) [1] 9
    [nonConvergedMsg] (by with_unfolding_all rfl)

/-! ### Constraint preservation along the loop (claim C1) -/

lemma dot_cons_cons (c z : ℚ) (rs zs : List ℚ) :
    dot (c :: rs) (z :: zs) = c * z + dot rs zs := by
  simp [dot]

lemma dot_fwUpdate (i : ℕ) :
    ∀ (r x y : List ℚ), x.length = y.length →
      dot r (fwUpdate i x y) = ((i : ℚ) * dot r x + 2 * dot r y) / ((i : ℚ) + 2)
  | r, [], y, h => by
      have hy : y = [] := by cases y <;> simp_all
      subst hy
      simp [dot, fwUpdate]
  | r, a :: xs, y, h => by
      cases y with
      | nil => simp at h
      | cons c cs =>
          cases r with
          | nil => simp [dot, fwUpdate]
          | cons rr rs =>
              have ih := dot_fwUpdate i rs xs cs (by simpa using h)
              have h2 : ((i : ℚ) + 2) ≠ 0 := by positivity
              simp only [fwUpdate, List.zipWith_cons_cons] at ih ⊢
              rw [dot_cons_cons, dot_cons_cons, dot_cons_cons, ih]
              field_simp
              ring

lemma fwStep_bound (i : ℕ) (u v bj ε : ℚ) (hu : |u - bj| ≤ ε) (hv : |v - bj| ≤ ε) :
    |((i : ℚ) * u + 2 * v) / ((i : ℚ) + 2) - bj| ≤ ε := by
  have h2 : (0 : ℚ) < (i : ℚ) + 2 := by positivity
  have key : ((i : ℚ) * u + 2 * v) / ((i : ℚ) + 2) - bj
      = ((i : ℚ) * (u - bj) + 2 * (v - bj)) / ((i : ℚ) + 2) := by
    field_simp
    ring
  rw [key, abs_div, abs_of_pos h2, div_le_iff₀ h2]
  calc |(i : ℚ) * (u - bj) + 2 * (v - bj)|
      ≤ |(i : ℚ) * (u - bj)| + |2 * (v - bj)| := abs_add _ _
    _ = (i : ℚ) * |u - bj| + 2 * |v - bj| := by
        rw [abs_mul, abs_mul, abs_of_nonneg (by positivity : (0:ℚ) ≤ (i:ℚ)),
          abs_of_nonneg (by norm_num : (0:ℚ) ≤ (2:ℚ))]
    _ ≤ (i : ℚ) * ε + 2 * ε := by
        have hi : (0:ℚ) ≤ (i:ℚ) := by positivity
        have := mul_le_mul_of_nonneg_left hu hi
        have := mul_le_mul_of_nonneg_left hv (by norm_num : (0:ℚ) ≤ (2:ℚ))
        linarith
    _ = ε * ((i : ℚ) + 2) := by ring

lemma fwLoop_inv (Q : List ℚ → Prop) (objective : List ℚ → ℚ)
    (oracle : ℕ → List ℚ → Bool × List ℚ) (tol : ℚ)
    (hstep : ∀ i x, Q x → Q (fwUpdate i x (oracle i x).2)) :
    ∀ (fuel i : ℕ) (x : List ℚ) (ob : Option ℚ) (lg : List String),
      Q x → Q ((fwLoop objective oracle tol fuel i x ob lg).1)
  | 0, _, _, _, _, hx => hx
  | fuel + 1, i, x, ob, lg, hx => by
      rw [fwLoop]
      try dsimp only
      by_cases hc : normLt (listSub (fwUpdate i x (oracle i x).2) x) tol = true
      · rw [if_pos hc]
        exact hstep i x hx
      · rw [if_neg hc]
        exact fwLoop_inv Q objective oracle tol hstep fuel (i + 1) _ _ _ (hstep i x hx)

/-- Claim C1 (amended): every Frank-Wolfe iterate — in particular the final
pre-cleanup iterate — satisfies each reduced marginal-constraint row (each
k-subset marginal of its full-length expansion) within `ε`, provided the
initial point and every oracle direction do.  The guarantee is on the loop
iterates only: tolerated non-optimal oracle directions violate the
hypothesis, and the final clamp-and-renormalise post-processing of the
returned pmf perturbs the marginals (see the counterexample). -/
theorem c1_amended (d : AbsDist) (pmf : List ℚ) (k : ℕ)
    (objective : List ℚ → ℚ) (fwOracle : ℕ → List ℚ → Bool × List ℚ)
    (tol ε : ℚ) (fuel i0 : ℕ) (x0 : List ℚ) (ob : Option ℚ) (lg : List String)
    (hx0len : x0.length = ((isolate_zeros d pmf k).2.2).nonzero.length)
    (hdirlen : ∀ i x, (fwOracle i x).2.length =
      ((isolate_zeros d pmf k).2.2).nonzero.length)
    (hx0 : constraintsOk d pmf k ε x0)
    (hdir : ∀ i x, constraintsOk d pmf k ε (fwOracle i x).2) :
    constraintsOk d pmf k ε ((fwLoop objective fwOracle tol fuel i0 x0 ob lg).1) := by
  have hstep : ∀ i x,
      (x.length = ((isolate_zeros d pmf k).2.2).nonzero.length ∧
        constraintsOk d pmf k ε x) →
      ((fwUpdate i x (fwOracle i x).2).length =
          ((isolate_zeros d pmf k).2.2).nonzero.length ∧
        constraintsOk d pmf k ε (fwUpdate i x (fwOracle i x).2)) := by
    rintro i x ⟨hlen, hok⟩
    constructor
    · simp [fwUpdate, hlen, hdirlen i x]
    · intro j hj
      rw [dot_fwUpdate i _ x (fwOracle i x).2 (by rw [hlen, hdirlen i x])]
      exact fwStep_bound i _ _ _ _ (hok j hj) (hdir i x j hj)
  exact (fwLoop_inv _ objective fwOracle tol hstep fuel i0 x0 ob lg ⟨hx0len, hx0⟩).2

/-- Witness for the amended C1 at a concrete input: with the uniform
distribution, a feasible initial point and feasible oracle directions
(`ε = 0`), the final pre-cleanup iterate satisfies every order-1 marginal
constraint exactly. -/
theorem c1_amended_witness :
    constraintsOk dFix pmfUnif 1 0 pmfUnif ∧
    constraintsOk dFix pmfUnif 1 0
      ((fwLoop (fun _ => (0 : ℚ)) (fun _ _ => (true, pmfUnif)) (1/1000) 1 0
        pmfUnif none []).1) :=
  ⟨by with_unfolding_all decide,
   c1_amended dFix pmfUnif 1 (fun _ => (0 : ℚ)) (fun _ _ => (true, pmfUnif))
     (1/1000) 0 1 0 pmfUnif none []
     (by with_unfolding_all decide)
     (by
       intro i x
       show pmfUnif.length = ((isolate_zeros dFix pmfUnif 1).2.2).nonzero.length
       with_unfolding_all decide)
     (by with_unfolding_all decide)
     (by
       intro i x
       show constraintsOk dFix pmfUnif 1 0 pmfUnif
       with_unfolding_all decide)⟩

/-! ### Nonnegativity and normalisation of the returned pmf (claim C3) -/

lemma fwUpdate_nonneg (i : ℕ) :
    ∀ (x y : List ℚ), (∀ a ∈ x, 0 ≤ a) → (∀ a ∈ y, 0 ≤ a) →
      ∀ a ∈ fwUpdate i x y, 0 ≤ a
  | [], _, _, _ => by simp [fwUpdate]
  | _ :: _, [], _, _ => by simp [fwUpdate]
  | a :: xs, c :: cs, hx, hy => by
      simp only [fwUpdate, List.zipWith_cons_cons, List.mem_cons]
      rintro t (rfl | ht)
      · have ha := hx a (by simp)
        have hc := hy c (by simp)
        have h2 : (0 : ℚ) < (i : ℚ) + 2 := by positivity
        refine div_nonneg ?_ h2.le
        have h3 : (0 : ℚ) ≤ (i : ℚ) * a := mul_nonneg (by positivity) ha
        linarith
      · exact fwUpdate_nonneg i xs cs (fun b hb => hx b (by simp [hb]))
          (fun b hb => hy b (by simp [hb])) t ht

lemma fwUpdate_length (i : ℕ) (x y : List ℚ) :
    (fwUpdate i x y).length = min x.length y.length := by
  simp [fwUpdate]

lemma sum_set_q : ∀ (l : List ℚ) (i : ℕ) (v : ℚ), i < l.length →
    (l.set i v).sum = l.sum - l.getD i 0 + v
  | [], i, v, h => by simp at h
  | a :: t, 0, v, _ => by
      simp only [List.set_cons_zero, List.sum_cons, List.getD_cons_zero]
      ring
  | a :: t, i + 1, v, h => by
      simp only [List.set_cons_succ, List.sum_cons, List.getD_cons_succ]
      rw [sum_set_q t i v (by simpa using h)]
      ring

lemma getD_set_ne (l : List ℚ) (i j : ℕ) (v : ℚ) (h : i ≠ j) :
    (l.set i v).getD j 0 = l.getD j 0 := by
  rw [List.getD_eq_getElem?_getD, List.getD_eq_getElem?_getD,
    List.getElem?_set_ne h]

lemma foldl_set_sum :
    ∀ (ps : List (ℕ × ℚ)) (acc : List ℚ),
      (ps.map Prod.fst).Nodup →
      (∀ p ∈ ps, p.1 < acc.length ∧ acc.getD p.1 0 = 0) →
      (ps.foldl (fun a p => a.set p.1 p.2) acc).sum = acc.sum + (ps.map Prod.snd).sum
  | [], acc, _, _ => by simp
  | p :: ps, acc, hnd, hin => by
      simp only [List.foldl_cons, List.map_cons, List.sum_cons]
      have h1 := hin p (by simp)
      have hhd : p.1 ∉ ps.map Prod.fst := by
        have := hnd
        simp only [List.map_cons, List.nodup_cons] at this
        exact this.1
      have hrec := foldl_set_sum ps (acc.set p.1 p.2)
        (by simpa using hnd.of_cons)
        (by
          intro q hq
          have hq1 := hin q (by simp [hq])
          refine ⟨by simpa using hq1.1, ?_⟩
          rw [getD_set_ne _ _ _ _ ?_]
          · exact hq1.2
          · intro hpq
            exact hhd (hpq ▸ List.mem_map_of_mem Prod.fst hq))
      rw [hrec, sum_set_q acc p.1 p.2 h1.1, h1.2]
      ring

lemma foldl_set_nonneg :
    ∀ (ps : List (ℕ × ℚ)) (acc : List ℚ),
      (∀ a ∈ acc, 0 ≤ a) → (∀ p ∈ ps, 0 ≤ p.2) →
      ∀ a ∈ ps.foldl (fun a p => a.set p.1 p.2) acc, 0 ≤ a
  | [], _, hacc, _, a, ha => hacc a ha
  | p :: ps, acc, hacc, hps, a, ha => by
      refine foldl_set_nonneg ps (acc.set p.1 p.2) ?_
        (fun q hq => hps q (by simp [hq])) a ha
      intro b hb
      rcases List.mem_or_eq_of_mem_set hb with h | rfl
      · exact hacc b h
      · exact hps p (by simp)

lemma scatter_sum (n : ℕ) (idxs : List ℕ) (vals : List ℚ)
    (hnd : idxs.Nodup) (hlt : ∀ i ∈ idxs, i < n)
    (hlen : vals.length = idxs.length) :
    (scatter n idxs vals).sum = vals.sum := by
  unfold scatter
  rw [foldl_set_sum]
  · rw [List.map_snd_zip _ _ (le_of_eq hlen)]
    simp
  · rw [List.map_fst_zip _ _ (le_of_eq hlen.symm)]
    exact hnd
  · intro p hp
    have hmem := List.of_mem_zip hp
    refine ⟨by simpa using hlt p.1 hmem.1, ?_⟩
    rw [List.getD_eq_getElem?_getD, List.getElem?_replicate]
    split <;> rfl

lemma scatter_nonneg (n : ℕ) (idxs : List ℕ) (vals : List ℚ)
    (hv : ∀ a ∈ vals, 0 ≤ a) : ∀ a ∈ scatter n idxs vals, 0 ≤ a := by
  unfold scatter
  apply foldl_set_nonneg
  · intro a ha
    rw [List.eq_of_mem_replicate ha]
  · intro p hp
    exact hv p.2 (List.of_mem_zip hp).2

lemma nonzero_nodup (d : AbsDist) (pmf : List ℚ) (k : ℕ) :
    ((isolate_zeros d pmf k).2.2).nonzero.Nodup := by
  rw [isolate_zeros_eq]
  exact (List.nodup_range _).filter _

lemma nonzero_lt (d : AbsDist) (pmf : List ℚ) (k : ℕ) :
    ∀ i ∈ ((isolate_zeros d pmf k).2.2).nonzero, i < d.n_elements := by
  rw [isolate_zeros_eq]
  intro i hi
  exact List.mem_range.mp (List.mem_filter.mp hi).1

lemma mc_rows_length (d : AbsDist) (pmf : List ℚ) (k : ℕ) :
    ∀ r ∈ (marginal_constraints d pmf k).1, r.length = d.n_elements := by
  intro r hr
  unfold marginal_constraints at hr
  dsimp only at hr
  rcases List.mem_map.mp hr with ⟨p, hp, rfl⟩
  rcases List.mem_flatten.mp hp with ⟨l, hl, hpl⟩
  rcases List.mem_map.mp hl with ⟨s, _, rfl⟩
  rcases List.mem_map.mp hpl with ⟨cell, _, rfl⟩
  simp [indicatorRow]

lemma mc_matCols (d : AbsDist) (pmf : List ℚ) (k : ℕ)
    (h : (marginal_constraints d pmf k).1 ≠ []) :
    matCols (marginal_constraints d pmf k).1 = d.n_elements := by
  cases hA : (marginal_constraints d pmf k).1 with
  | nil => exact absurd hA h
  | cons r rs =>
      have hrl := mc_rows_length d pmf k r (by rw [hA]; simp)
      simp [matCols, hA, hrl]

lemma selectCols_matCols (A : Mat) (cols : List ℕ) (h : A ≠ []) :
    matCols (selectCols A cols) = cols.length := by
  cases A with
  | nil => exact absurd rfl h
  | cons r rs => simp [selectCols, matCols]

lemma snapip_nonneg (v : List ℚ) (hv : ∀ a ∈ v, 0 ≤ a) :
    ∀ a ∈ snapip v, 0 ≤ a := by
  intro a ha
  rcases List.mem_map.mp ha with ⟨t, ht, rfl⟩
  split_ifs
  · exact le_refl 0
  · exact hv t ht

lemma normalizeList_nonneg (v : List ℚ) (hv : ∀ a ∈ v, 0 ≤ a)
    (hs : 0 ≤ v.sum) : ∀ a ∈ normalizeList v, 0 ≤ a := by
  intro a ha
  rcases List.mem_map.mp ha with ⟨t, ht, rfl⟩
  exact div_nonneg (hv t ht) hs

lemma clampSmall_nonneg (tol : ℚ) (v : List ℚ) (hv : ∀ a ∈ v, 0 ≤ a) :
    ∀ a ∈ clampSmall tol v, 0 ≤ a := by
  intro a ha
  rcases List.mem_map.mp ha with ⟨t, ht, rfl⟩
  split_ifs
  · exact le_refl 0
  · exact hv t ht

/-- Claim C3: on a valid run — the LP oracles return vectors of the reduced
length that satisfy the nonnegativity constraint, the snapped initial
vector and the clamped final iterate have positive sums, the constraint
builder yields at least one row, and `maxiters ≥ 1` — the full-length pmf
returned by `marginal_maxent` (the `frank_wolfe` result expanded by
`scatter`) has every component nonnegative and sums to exactly 1 (hence to
1 within `1e-6`). -/
theorem c3_returned_pmf_normalized (d : AbsDist) (pmf : List ℚ) (k : ℕ)
    (l2 : ℚ → ℚ) (xv : List ℚ) (fwOracle : ℕ → List ℚ → Bool × List ℚ)
    (maxiters : ℕ) (tol : ℚ)
    (hA : (marginal_constraints d pmf k).1 ≠ [])
    (hm : 1 ≤ maxiters)
    (hxv : ∀ a ∈ xv, 0 ≤ a)
    (hxvlen : xv.length = ((isolate_zeros d pmf k).2.2).nonzero.length)
    (hsnap : 0 < (snapip xv).sum)
    (hdir : ∀ i x, (∀ a ∈ (fwOracle i x).2, 0 ≤ a) ∧
      (fwOracle i x).2.length = xv.length)
    (hclean : 0 < (clampSmall tol (fwLoop (negentropy l2) fwOracle tol maxiters 0
        (normalizeList (snapip xv)) none []).1).sum) :
    ∃ xf obj,
      marginal_maxent d pmf k l2 (fun _ _ => (true, xv)) fwOracle maxiters tol =
        .ok (xf, obj) ∧
      (∀ a ∈ xf, 0 ≤ a) ∧ xf.sum = 1 := by
  have hAsm : matCols (selectCols (marginal_constraints d pmf k).1
      ((isolate_zeros d pmf k).2.2).nonzero) =
      ((isolate_zeros d pmf k).2.2).nonzero.length := selectCols_matCols _ _ hA
  -- the initial point returned by `initial_point` with the constant oracle
  have hx0len : (normalizeList (snapip xv)).length = xv.length := by
    simp [normalizeList, snapip]
  have hx0nn : ∀ a ∈ normalizeList (snapip xv), 0 ≤ a :=
    normalizeList_nonneg _ (snapip_nonneg xv hxv) hsnap.le
  -- run of the loop: nonnegativity and length invariant
  have hinv := fwLoop_inv
    (fun x => (∀ a ∈ x, 0 ≤ a) ∧ x.length = xv.length)
    (negentropy l2) fwOracle tol
    (by
      rintro i x ⟨hxnn, hxlen⟩
      refine ⟨fwUpdate_nonneg i x (fwOracle i x).2 hxnn (hdir i x).1, ?_⟩
      rw [fwUpdate_length, hxlen, (hdir i x).2]
      simp)
    maxiters 0 (normalizeList (snapip xv)) none []
    ⟨hx0nn, hx0len⟩
  have hobj := fwLoop_obj_isSome (negentropy l2) fwOracle tol maxiters 0
    (normalizeList (snapip xv)) none [] (Or.inr hm)
  obtain ⟨obj, hobjeq⟩ := Option.isSome_iff_exists.mp hobj
  -- the cleaned-up reduced result
  set xfin := (fwLoop (negentropy l2) fwOracle tol maxiters 0
    (normalizeList (snapip xv)) none []).1 with hxfin
  have hynn : ∀ a ∈ clampSmall tol xfin, 0 ≤ a := clampSmall_nonneg tol xfin hinv.1
  have hcnn : ∀ a ∈ cleanup tol xfin, 0 ≤ a :=
    normalizeList_nonneg _ hynn hclean.le
  have hcsum : (cleanup tol xfin).sum = 1 :=
    sum_normalizeList _ (ne_of_gt hclean)
  have hclen : (cleanup tol xfin).length = ((isolate_zeros d pmf k).2.2).nonzero.length := by
    simp only [cleanup, normalizeList, clampSmall, List.length_map]
    rw [hinv.2, hxvlen]
  -- evaluate `marginal_maxent`
  refine ⟨scatter (matCols (marginal_constraints d pmf k).1)
    ((isolate_zeros d pmf k).2.2).nonzero (cleanup tol xfin), obj, ?_, ?_, ?_⟩
  · unfold marginal_maxent
    dsimp only
    have hip : initial_point d pmf k (marginal_constraints d pmf k)
        (some (selectCols (marginal_constraints d pmf k).1
          ((isolate_zeros d pmf k).2.2).nonzero))
        (some (marginal_constraints d pmf k).2) none
        (fun _ _ => (true, xv)) = .ok (normalizeList (snapip xv)) := by
      unfold initial_point
      dsimp only
      unfold ip_branch
      dsimp only
      rw [if_pos hAsm]
      rfl
    rw [hip]
    dsimp only
    unfold frank_wolfe
    rw [if_pos (by rw [hAsm, hx0len, hxvlen])]
    dsimp only
    rw [hobjeq]
  · exact scatter_nonneg _ _ _ hcnn
  · rw [scatter_sum _ _ _ (nonzero_nodup d pmf k) ?_ hclen, hcsum]
    rw [mc_matCols d pmf k hA]
    exact nonzero_lt d pmf k

/-- Witness for C3 at a concrete input: the order-2 run on the uniform 2×2
distribution with feasible oracles returns the uniform pmf, which is
nonnegative and sums to 1. -/
theorem c3_returned_pmf_normalized_witness :
    (1 ≤ 1) ∧
    ∃ xf obj,
      marginal_maxent dFix pmfUnif 2 (fun _ => (0 : ℚ)) (fun _ _ => (true, pmfUnif))
        (fun _ _ => (true, pmfUnif)) 1 (1/1000) = .ok (xf, obj) ∧
      (∀ a ∈ xf, 0 ≤ a) ∧ xf.sum = 1 :=
  ⟨le_refl 1,
   c3_returned_pmf_normalized dFix pmfUnif 2 (fun _ => (0 : ℚ)) pmfUnif
     (fun _ _ => (true, pmfUnif)) 1 (1/1000)
     (by with_unfolding_all decide)
     (le_refl 1)
     (by with_unfolding_all decide)
     (by with_unfolding_all decide)
     (by with_unfolding_all decide)
     (by
       intro i x
       constructor
       · show ∀ a ∈ pmfUnif, 0 ≤ a
         with_unfolding_all decide
       · show pmfUnif.length = pmfUnif.length
         rfl)
     (by with_unfolding_all decide)⟩

/-! ### The multi-order driver (claim C2) -/

lemma normalizeList_replicate_one (n : ℕ) :
    normalizeList (List.replicate n (1 : ℚ)) = List.replicate n (1 / (n : ℚ)) := by
  unfold normalizeList
  rw [List.map_replicate]
  congr 1
  rw [List.sum_replicate]
  simp [nsmul_eq_mul]

lemma ks_filter_eq (k_max : ℕ) (h : 2 ≤ k_max) :
    (List.range (k_max + 1)).filter (fun k => !([0, 1, k_max].contains k)) =
      List.range' 2 (k_max - 2) := by
  obtain ⟨m, rfl⟩ : ∃ m, k_max = m + 2 := ⟨k_max - 2, by omega⟩
  have h1 : List.range (m + 2 + 1) = 0 :: 1 :: List.range' 2 (m + 1) := by
    rw [List.range_eq_range', List.range'_succ, List.range'_succ]
  have h2 : List.range' 2 (m + 1) = List.range' 2 m ++ [2 + 1 * m] :=
    List.range'_concat 2 m
  rw [h1, h2, List.filter_cons_of_neg (by simp), List.filter_cons_of_neg (by simp),
    List.filter_append]
  have h3 : (List.range' 2 m).filter (fun k => !([0, 1, m + 2].contains k)) =
      List.range' 2 m := by
    rw [List.filter_eq_self]
    intro a ha
    rcases List.mem_range'.mp ha with ⟨i, hi, rfl⟩
    simp
    omega
  have h4 : ([2 + 1 * m] : List ℕ).filter (fun k => !([0, 1, m + 2].contains k)) = [] := by
    have hmm2 : 2 + 1 * m = m + 2 := by omega
    rw [hmm2]
    simp
  rw [h3, h4, List.append_nil]
  have hm2 : m + 2 - 2 = m := by omega
  rw [hm2]

lemma seqExcept_ok {E α : Type} :
    ∀ (l : List (Except E α)), (∀ e ∈ l, ∃ v, e = .ok v) →
      ∃ vs, seqExcept l = .ok vs ∧ List.Forall₂ (fun e v => e = .ok v) l vs
  | [], _ => ⟨[], rfl, List.Forall₂.nil⟩
  | e :: es, h => by
      obtain ⟨v, rfl⟩ := h e (by simp)
      obtain ⟨vs, hvs, hf⟩ := seqExcept_ok es (fun e' he' => h e' (by simp [he']))
      exact ⟨v :: vs, by simp [seqExcept, hvs], List.Forall₂.cons rfl hf⟩

lemma except_map_ok {E α β : Type} (f : α → β) (r : Except E α) (b : β)
    (h : r.map f = .ok b) : ∃ a, r = .ok a ∧ f a = b := by
  cases r with
  | error e => simp [Except.map] at h
  | ok a =>
      simp only [Except.map, Except.ok.injEq] at h
      exact ⟨a, rfl, h⟩

/-- Claim C2 (amended): for `k_max ≥ 2` — when every order-k optimisation
succeeds — the driver returns exactly `k_max + 1` distributions: the uniform,
the product of marginals, the order-k optimised pmfs for `k = 2..k_max−1` in
order, and the original.  For `k_max ∈ {0, 1}` it instead returns the 3
distributions `[uniform, product, original]` (all loop indices are skipped,
while the three unconditional entries are still emitted). -/
theorem c2_amended (d : AbsDist) (pmf : List ℚ) (l2 : ℚ → ℚ)
    (ipO : ℕ → Mat → List ℚ → Bool × List ℚ)
    (fwO : ℕ → ℕ → List ℚ → Bool × List ℚ)
    (k_max maxiters : ℕ) (tol : ℚ) :
    (k_max ≤ 1 →
      marginal_maxent_dists d pmf l2 ipO fwO k_max maxiters tol =
        .ok [List.replicate d.n_elements ((1 : ℚ) / (d.n_elements : ℚ)),
          product_distribution d pmf, pmf]) ∧
    (2 ≤ k_max →
      (∀ k ∈ List.range' 2 (k_max - 2), ∃ p,
        marginal_maxent d pmf k l2 (ipO k) (fwO k) maxiters tol = .ok p) →
      ∃ ms,
        marginal_maxent_dists d pmf l2 ipO fwO k_max maxiters tol =
          .ok (List.replicate d.n_elements ((1 : ℚ) / (d.n_elements : ℚ)) ::
            product_distribution d pmf :: (ms ++ [pmf])) ∧
        ms.length = k_max - 2 ∧
        (List.replicate d.n_elements ((1 : ℚ) / (d.n_elements : ℚ)) ::
          product_distribution d pmf :: (ms ++ [pmf])).length = k_max + 1 ∧
        List.Forall₂ (fun k mid => ∃ o,
          marginal_maxent d pmf k l2 (ipO k) (fwO k) maxiters tol = .ok (mid, o))
          (List.range' 2 (k_max - 2)) ms) := by
  constructor
  · intro hk
    interval_cases k_max
    · rw [show marginal_maxent_dists d pmf l2 ipO fwO 0 maxiters tol =
          .ok [normalizeList (List.replicate d.n_elements 1),
            product_distribution d pmf, pmf] from rfl,
        normalizeList_replicate_one]
    · rw [show marginal_maxent_dists d pmf l2 ipO fwO 1 maxiters tol =
          .ok [normalizeList (List.replicate d.n_elements 1),
            product_distribution d pmf, pmf] from rfl,
        normalizeList_replicate_one]
  · intro h2 hsucc
    have hall : ∀ e ∈ (List.range' 2 (k_max - 2)).map
        (fun k => (marginal_maxent d pmf k l2 (ipO k) (fwO k) maxiters tol).map
          Prod.fst), ∃ v, e = .ok v := by
      intro e he
      rcases List.mem_map.mp he with ⟨k, hk, rfl⟩
      obtain ⟨p, hp⟩ := hsucc k hk
      exact ⟨p.1, by rw [hp]; rfl⟩
    obtain ⟨ms, hms, hf⟩ := seqExcept_ok _ hall
    have hlen : ms.length = k_max - 2 := by
      rw [← hf.length_eq]
      simp
    refine ⟨ms, ?_, hlen, ?_, ?_⟩
    · unfold marginal_maxent_dists
      dsimp only
      rw [ks_filter_eq k_max h2, hms, normalizeList_replicate_one]
      rfl
    · simp [hlen]
      omega
    · have hf2 := List.forall₂_map_left_iff.mp hf
      refine hf2.imp ?_
      intro k mid he
      obtain ⟨p, hp, hfst⟩ := except_map_ok Prod.fst _ _ he
      exact ⟨p.2, by rw [hp, ← hfst]⟩

/-- Witness for the amended C2 at a concrete input: `k_max = 3` on the
uniform 2×2 distribution with feasible oracles returns 4 distributions
`[uniform, product, order-2 optimum, original]`. -/
theorem c2_amended_witness :
    ∃ ms,
      marginal_maxent_dists dFix pmfUnif (fun _ => (0 : ℚ))
          (fun _ _ _ => (true, pmfUnif)) (fun _ _ _ => (true, pmfUnif)) 3 1 (1/1000) =
        .ok (List.replicate dFix.n_elements ((1 : ℚ) / (dFix.n_elements : ℚ)) ::
          product_distribution dFix pmfUnif :: (ms ++ [pmfUnif])) ∧
      ms.length = 3 - 2 ∧
      (List.replicate dFix.n_elements ((1 : ℚ) / (dFix.n_elements : ℚ)) ::
        product_distribution dFix pmfUnif :: (ms ++ [pmfUnif])).length = 3 + 1 ∧
      List.Forall₂ (fun k mid => ∃ o,
        marginal_maxent dFix pmfUnif k (fun _ => (0 : ℚ))
          ((fun _ (_ : Mat) (_ : List ℚ) => (true, pmfUnif)) k)
          ((fun _ (_ : ℕ) (_ : List ℚ) => (true, pmfUnif)) k) 1 (1/1000) = .ok (mid, o))
        (List.range' 2 (3 - 2)) ms :=
  (c2_amended dFix pmfUnif (fun _ => (0 : ℚ)) (fun _ _ _ => (true, pmfUnif))
      (fun _ _ _ => (true, pmfUnif)) 3 1 (1/1000)).2 (by omega)
    (by
      intro k hk
      have hk2 : k = 2 := by simpa using hk
      subst hk2
      exact ⟨(pmfUnif, 0), by with_unfolding_all rfl⟩)

end Dit
